import Mathlib

set_option maxHeartbeats 1000000

/-!
Formal model of the `alloc-cortex-m` crate: a heap allocator for Cortex-M
processors (`src/src/lib.rs`).  The crate itself is a thin guarded wrapper
(`CortexMHeap`) around two collaborators that live outside `src/`:

* the free-list heap `linked_list_allocator::Heap` (first-fit search,
  splitting, coalescing) — modelled from the spec below;
* the critical-section primitive `cortex_m::interrupt::Mutex` ("run this
  closure with interrupts disabled on this core, restoring the prior
  interrupt-enable state on exit") — modelled from the spec below.

Machine integers (`usize`) are 32-bit on Cortex-M; where overflow matters we
compute modulo `2 ^ 32` explicitly.  Stateful code is embedded as explicit
state passing over a `Machine` record (the core's interrupt-enable flag plus
the protected free list); each guarded operation additionally returns the
list of intermediate machine states it passes through inside the critical
section, so that claims about interrupt masking can be stated.
-/

/-- A free block of the free list: starting address and size in bytes. -/
structure Block where
  addr : Nat
  size : Nat
deriving DecidableEq

/-- Address `x` lies inside one of the free blocks of the list `h`. -/
def covers (h : List Block) (x : Nat) : Prop :=
  ∃ b ∈ h, b.addr ≤ x ∧ x < b.addr + b.size

instance (h : List Block) (x : Nat) : Decidable (covers h x) :=
  decidable_of_iff (∃ b ∈ h, b.addr ≤ x ∧ x < b.addr + b.size) Iff.rfl

/-- Round address `a` up to the next multiple of `align`. -/
def alignUp (a align : Nat) : Nat :=
  (a + align - 1) / align * align

/-- Machine `usize` subtraction on a 32-bit Cortex-M target: unchecked,
wrapping modulo `2 ^ 32`. -/
def usizeSub (a b : Nat) : Nat :=
  (a + 2 ^ 32 - b % 2 ^ 32) % 2 ^ 32

/-- The free list is in ascending address order with pairwise disjoint,
nonempty blocks; `lo` is a lower bound on the first block's address. -/
def sortedFrom (lo : Nat) : List Block → Prop
  | [] => True
  | b :: r => lo ≤ b.addr ∧ 0 < b.size ∧ sortedFrom (b.addr + b.size) r

/-- Well-formed free list: ascending, disjoint, nonempty blocks that are
maximally coalesced (a strict gap separates consecutive blocks). -/
def wfFrom (lo : Nat) : List Block → Prop
  | [] => True
  | b :: r => lo ≤ b.addr ∧ 0 < b.size ∧ wfFrom (b.addr + b.size + 1) r

/-- Well-formed free list (no constraint on the first address). -/
def wf (h : List Block) : Prop := wfFrom 0 h

instance instDecidableSortedFrom (lo : Nat) (h : List Block) :
    Decidable (sortedFrom lo h) :=
  match h with
  | [] => isTrue trivial
  | b :: r =>
    have : Decidable (sortedFrom (b.addr + b.size) r) :=
      instDecidableSortedFrom _ r
    inferInstanceAs (Decidable (_ ∧ _ ∧ _))

instance instDecidableWfFrom (lo : Nat) (h : List Block) :
    Decidable (wfFrom lo h) :=
  match h with
  | [] => isTrue trivial
  | b :: r =>
    have : Decidable (wfFrom (b.addr + b.size + 1) r) :=
      instDecidableWfFrom _ r
    inferInstanceAs (Decidable (_ ∧ _ ∧ _))

instance (h : List Block) : Decidable (wf h) :=
  inferInstanceAs (Decidable (wfFrom 0 h))

/-- Modelled from the spec: `linked_list_allocator::Heap::empty` (the
FreeListHeap implementation is an external crate, not under `src/`) — "a
heap with no backing region and an empty free list". -/
def Heap.empty : List Block := []

/-- Modelled from the spec: `linked_list_allocator::Heap::init` (external
crate, not under `src/`) — "establishes the region `[start, start+size)` as
one single free block spanning the whole region". -/
def Heap.init (start size : Nat) : List Block := [⟨start, size⟩]

/-- Modelled from the spec: `linked_list_allocator::Heap::allocate_first_fit`
(external crate, not under `src/`) — "a first-fit search over the free list
in ascending-address order, selecting the first block whose address, after
rounding up to `alignment`, leaves enough trailing space for `size` bytes";
the leading alignment slack and the tail remainder re-enter the free list at
their original position, otherwise the whole block is consumed.  Returns the
updated free list and the aligned payload address, or `none` for
OutOfMemory. -/
def Heap.allocate_first_fit (size align : Nat) :
    List Block → Option (List Block × Nat)
  | [] => none
  | b :: rest =>
    let aligned := alignUp b.addr align
    let pad := aligned - b.addr
    if pad + size ≤ b.size then
      some ((if 0 < pad then [⟨b.addr, pad⟩] else []) ++
            (if 0 < b.size - (pad + size) then
              [⟨aligned + size, b.size - (pad + size)⟩] else []) ++
            rest, aligned)
    else
      match Heap.allocate_first_fit size align rest with
      | none => none
      | some (rest', p) => some (b :: rest', p)

/-- Insert a block into the free list at its ascending-address position. -/
def insertBlock (b : Block) : List Block → List Block
  | [] => [b]
  | c :: r => if b.addr ≤ c.addr then b :: c :: r else c :: insertBlock b r

/-- Merge every pair of exactly adjacent free blocks (end address of one
equals start address of the next), transitively. -/
def coalesce : List Block → List Block
  | [] => []
  | b :: r =>
    match coalesce r with
    | [] => [b]
    | c :: r' =>
      if b.addr + b.size = c.addr then ⟨b.addr, b.size + c.size⟩ :: r'
      else b :: c :: r'

/-- Modelled from the spec: `linked_list_allocator::Heap::deallocate`
(external crate, not under `src/`) — "reinserts the given region into the
free list at its address-sorted position, then coalesces" with both
neighbours.  The alignment component of the layout does not influence the
reinserted range. -/
def Heap.deallocate (ptr size _align : Nat) (h : List Block) : List Block :=
  coalesce (insertBlock ⟨ptr, size⟩ h)

/-- Machine state: the core's interrupt-enable flag (`primask = true` means
interrupt delivery is enabled) and the free list protected by the mutex. -/
structure Machine where
  primask : Bool
  heap : List Block
deriving DecidableEq

/-- Modelled from the spec: the critical-section collaborator
(`cortex_m::interrupt::Mutex::lock`, external crate, not under `src/`) —
disables interrupt delivery on the core, runs the closure on the protected
heap, and restores the prior interrupt-enable state on exit.  Besides the
final machine and the closure's result it returns the trace of intermediate
machine states passed through inside the critical section. -/
def Mutex.lock {α : Type} (f : List Block → List Block × α) (m : Machine) :
    List Machine × Machine × α :=
  ([⟨false, m.heap⟩, ⟨false, (f m.heap).1⟩],
   ⟨m.primask, (f m.heap).1⟩,
   (f m.heap).2)

/-- `CortexMHeap::empty` from `src/src/lib.rs`: wraps `Heap::empty()` in the
mutex; construction touches neither the interrupt flag nor any memory
region. -/
def CortexMHeap.empty (primask : Bool) : Machine :=
  ⟨primask, Heap.empty⟩

/-- `CortexMHeap::init` from `src/src/lib.rs`: computes
`size = end_addr - start_addr` by machine subtraction, then
`self.heap.lock(|heap| heap.init(start_addr, size))`. -/
def CortexMHeap.init (start_addr end_addr : Nat) (m : Machine) :
    List Machine × Machine × Unit :=
  Mutex.lock
    (fun _heap => (Heap.init start_addr (usizeSub end_addr start_addr), ())) m

/-- `Alloc::alloc` from `src/src/lib.rs`:
`self.heap.lock(|heap| heap.allocate_first_fit(layout))`; the layout is the
pair `(size, align)` and `none` models the `AllocErr` (OutOfMemory)
result. -/
def Alloc.alloc (size align : Nat) (m : Machine) :
    List Machine × Machine × Option Nat :=
  Mutex.lock
    (fun heap =>
      match Heap.allocate_first_fit size align heap with
      | none => (heap, none)
      | some (h', p) => (h', some p)) m

/-- `Alloc::dealloc` from `src/src/lib.rs`:
`self.heap.lock(|heap| heap.deallocate(ptr, layout))`. -/
def Alloc.dealloc (ptr size align : Nat) (m : Machine) :
    List Machine × Machine × Unit :=
  Mutex.lock (fun heap => (Heap.deallocate ptr size align heap, ())) m

/-- Interrupt delivery can preempt execution in machine state `m` only when
the interrupt-enable flag is set. -/
def interruptsEnabled (m : Machine) : Prop := m.primask = true

/-- Block `b` can serve the request `(size, align)`: after rounding `b.addr`
up to `align`, `size` bytes still fit inside `b`. -/
def fitsReq (size align : Nat) (b : Block) : Prop :=
  alignUp b.addr align - b.addr + size ≤ b.size

instance (size align : Nat) (b : Block) : Decidable (fitsReq size align b) :=
  decidable_of_iff (alignUp b.addr align - b.addr + size ≤ b.size) Iff.rfl

/-! ### Basic lemmas about `covers`, `sortedFrom` and `wfFrom` -/

@[simp] theorem covers_nil (x : Nat) : covers [] x ↔ False := by
  simp [covers]

theorem covers_cons {b : Block} {r : List Block} {x : Nat} :
    covers (b :: r) x ↔ (b.addr ≤ x ∧ x < b.addr + b.size) ∨ covers r x := by
  simp [covers]

theorem covers_append {l₁ l₂ : List Block} {x : Nat} :
    covers (l₁ ++ l₂) x ↔ covers l₁ x ∨ covers l₂ x := by
  simp [covers, or_and_right, exists_or]

theorem sortedFrom_cons {lo : Nat} {b : Block} {r : List Block} :
    sortedFrom lo (b :: r) ↔
      lo ≤ b.addr ∧ 0 < b.size ∧ sortedFrom (b.addr + b.size) r :=
  Iff.rfl

theorem wfFrom_cons {lo : Nat} {b : Block} {r : List Block} :
    wfFrom lo (b :: r) ↔
      lo ≤ b.addr ∧ 0 < b.size ∧ wfFrom (b.addr + b.size + 1) r :=
  Iff.rfl

theorem sortedFrom_mono {lo' lo : Nat} {l : List Block} (hle : lo' ≤ lo)
    (hs : sortedFrom lo l) : sortedFrom lo' l := by
  cases l with
  | nil => trivial
  | cons b r => exact ⟨le_trans hle hs.1, hs.2⟩

theorem wfFrom_sortedFrom :
    ∀ {l : List Block} {lo : Nat}, wfFrom lo l → sortedFrom lo l
  | [], _, _ => trivial
  | _ :: _, _, h =>
    ⟨h.1, h.2.1, sortedFrom_mono (Nat.le_succ _) (wfFrom_sortedFrom h.2.2)⟩

theorem sortedFrom_covers_le {l : List Block} :
    ∀ {lo x : Nat}, sortedFrom lo l → covers l x → lo ≤ x := by
  induction l with
  | nil => intro lo x _ hc; exact absurd hc (by simp)
  | cons b r ih =>
    intro lo x hs hc
    rcases covers_cons.mp hc with h | h
    · have := hs.1; omega
    · have h1 := hs.1
      have := ih hs.2.2 h
      omega

/-! ### Lemmas about `insertBlock` and `coalesce` -/

theorem covers_insertBlock {l : List Block} :
    ∀ {b : Block} {x : Nat},
      covers (insertBlock b l) x ↔
        (b.addr ≤ x ∧ x < b.addr + b.size) ∨ covers l x := by
  induction l with
  | nil =>
    intro b x
    rw [insertBlock, covers_cons]
  | cons c r ih =>
    intro b x
    rw [insertBlock]
    by_cases h : b.addr ≤ c.addr
    · rw [if_pos h, covers_cons]
    · rw [if_neg h, covers_cons, ih, covers_cons]
      tauto

theorem sortedFrom_insertBlock {l : List Block} :
    ∀ {lo p s : Nat}, sortedFrom lo l → lo ≤ p → 0 < s →
      (∀ x, x < p + s → p ≤ x → ¬ covers l x) →
      sortedFrom lo (insertBlock ⟨p, s⟩ l) := by
  induction l with
  | nil =>
    intro lo p s _ hlo hpos _
    exact ⟨hlo, hpos, trivial⟩
  | cons c r ih =>
    intro lo p s hs hlo hpos hdisj
    rw [insertBlock]
    by_cases hpc : p ≤ c.addr
    · rw [if_pos hpc]
      have hgap : p + s ≤ c.addr := by
        by_contra hlt
        push_neg at hlt
        exact hdisj c.addr hlt hpc
          (covers_cons.mpr (Or.inl ⟨le_refl _, by have := hs.2.1; omega⟩))
      exact ⟨hlo, hpos, hgap, hs.2⟩
    · rw [if_neg hpc]
      push_neg at hpc
      have hce : c.addr + c.size ≤ p := by
        by_contra hlt
        push_neg at hlt
        exact hdisj p (by omega) (le_refl p)
          (covers_cons.mpr (Or.inl ⟨by omega, by omega⟩))
      refine ⟨hs.1, hs.2.1, ih hs.2.2 hce hpos ?_⟩
      intro x hx1 hx2 hc
      exact hdisj x hx1 hx2 (covers_cons.mpr (Or.inr hc))

theorem covers_coalesce (l : List Block) :
    ∀ x : Nat, covers (coalesce l) x ↔ covers l x := by
  induction l with
  | nil => intro x; rw [coalesce]
  | cons b r ih =>
    intro x
    rw [coalesce]
    cases hcr : coalesce r with
    | nil =>
      have hr : ¬ covers r x := by
        rw [← ih x, hcr]; simp
      rw [covers_cons, covers_cons]
      simp [hr]
    | cons c r' =>
      dsimp only
      have h2 := ih x
      rw [hcr] at h2
      by_cases hadj : b.addr + b.size = c.addr
      · rw [if_pos hadj, covers_cons, covers_cons, ← h2, covers_cons]
        dsimp only
        constructor
        · rintro (h | h)
          · by_cases hx : x < b.addr + b.size
            · exact Or.inl ⟨h.1, hx⟩
            · exact Or.inr (Or.inl ⟨by omega, by omega⟩)
          · exact Or.inr (Or.inr h)
        · rintro (h | h | h)
          · exact Or.inl ⟨h.1, by omega⟩
          · exact Or.inl ⟨by omega, by omega⟩
          · exact Or.inr h
      · rw [if_neg hadj, covers_cons, h2, covers_cons]

theorem wfFrom_congr {lo lo' : Nat} {l : List Block} (heq : lo = lo')
    (hw : wfFrom lo l) : wfFrom lo' l :=
  heq ▸ hw

theorem wfFrom_coalesce {l : List Block} :
    ∀ {lo : Nat}, sortedFrom lo l → wfFrom lo (coalesce l) := by
  induction l with
  | nil => intro lo _; rw [coalesce]; trivial
  | cons b r ih =>
    intro lo hs
    rw [coalesce]
    cases hcr : coalesce r with
    | nil => exact ⟨hs.1, hs.2.1, trivial⟩
    | cons c r' =>
      dsimp only
      have hw : wfFrom (b.addr + b.size) (c :: r') := by
        rw [← hcr]; exact ih hs.2.2
      rw [wfFrom_cons] at hw
      by_cases hadj : b.addr + b.size = c.addr
      · rw [if_pos hadj, wfFrom_cons]
        dsimp only
        refine ⟨hs.1, by have := hs.2.1; omega, ?_⟩
        exact wfFrom_congr (by omega) hw.2.2
      · rw [if_neg hadj, wfFrom_cons]
        exact ⟨hs.1, hs.2.1, by omega, hw.2.1, hw.2.2⟩

/-! ### Lemmas about `Heap.deallocate` -/

theorem covers_deallocate {p s a : Nat} {l : List Block} {x : Nat} :
    covers (Heap.deallocate p s a l) x ↔ (p ≤ x ∧ x < p + s) ∨ covers l x := by
  rw [Heap.deallocate, covers_coalesce, covers_insertBlock]

theorem wf_deallocate {p s a : Nat} {l : List Block} (hw : wf l) (hs : 0 < s)
    (hdisj : ∀ x, x < p + s → p ≤ x → ¬ covers l x) :
    wf (Heap.deallocate p s a l) :=
  wfFrom_coalesce
    (sortedFrom_insertBlock (wfFrom_sortedFrom hw) (Nat.zero_le p) hs hdisj)

/-! ### A well-formed free list is determined by the set of covered addresses -/

theorem wfFrom_covers_head_le {lo x : Nat} {b : Block} {r : List Block}
    (hw : wfFrom lo (b :: r)) (hc : covers (b :: r) x) : b.addr ≤ x := by
  rcases covers_cons.mp hc with h | h
  · exact h.1
  · have := sortedFrom_covers_le (wfFrom_sortedFrom hw.2.2) h
    omega

theorem wfFrom_tail_covers_lb {lo x : Nat} {b : Block} {r : List Block}
    (hw : wfFrom lo (b :: r)) (hc : covers r x) : b.addr + b.size + 1 ≤ x :=
  sortedFrom_covers_le (wfFrom_sortedFrom hw.2.2) hc

theorem wf_head_size_le {lo₁ lo₂ : Nat} {b c : Block} {r₁ r₂ : List Block}
    (hw₁ : wfFrom lo₁ (b :: r₁)) (hw₂ : wfFrom lo₂ (c :: r₂))
    (hext : ∀ x, covers (b :: r₁) x ↔ covers (c :: r₂) x)
    (haddr : b.addr = c.addr) : b.size ≤ c.size := by
  by_contra hlt
  push_neg at hlt
  have hbx : covers (b :: r₁) (c.addr + c.size) :=
    covers_cons.mpr (Or.inl ⟨by omega, by omega⟩)
  have hcx := (hext _).mp hbx
  rcases covers_cons.mp hcx with h | h
  · omega
  · have := wfFrom_tail_covers_lb hw₂ h
    omega

theorem wf_ext {l₁ : List Block} :
    ∀ {l₂ : List Block} {lo₁ lo₂ : Nat}, wfFrom lo₁ l₁ → wfFrom lo₂ l₂ →
      (∀ x, covers l₁ x ↔ covers l₂ x) → l₁ = l₂ := by
  induction l₁ with
  | nil =>
    intro l₂ lo₁ lo₂ _ hw₂ hext
    cases l₂ with
    | nil => rfl
    | cons c r₂ =>
      exfalso
      have hc : covers (c :: r₂) c.addr :=
        covers_cons.mpr (Or.inl ⟨le_refl _, by have := hw₂.2.1; omega⟩)
      exact (covers_nil c.addr).mp ((hext c.addr).mpr hc)
  | cons b r₁ ih =>
    intro l₂ lo₁ lo₂ hw₁ hw₂ hext
    cases l₂ with
    | nil =>
      exfalso
      have hb : covers (b :: r₁) b.addr :=
        covers_cons.mpr (Or.inl ⟨le_refl _, by have := hw₁.2.1; omega⟩)
      exact (covers_nil b.addr).mp ((hext b.addr).mp hb)
    | cons c r₂ =>
      have hb : covers (b :: r₁) b.addr :=
        covers_cons.mpr (Or.inl ⟨le_refl _, by have := hw₁.2.1; omega⟩)
      have hc : covers (c :: r₂) c.addr :=
        covers_cons.mpr (Or.inl ⟨le_refl _, by have := hw₂.2.1; omega⟩)
      have h₁ : c.addr ≤ b.addr := wfFrom_covers_head_le hw₂ ((hext b.addr).mp hb)
      have h₂ : b.addr ≤ c.addr := wfFrom_covers_head_le hw₁ ((hext c.addr).mpr hc)
      have haddr : b.addr = c.addr := le_antisymm h₂ h₁
      have hsize : b.size = c.size :=
        le_antisymm (wf_head_size_le hw₁ hw₂ hext haddr)
          (wf_head_size_le hw₂ hw₁ (fun x => (hext x).symm) haddr.symm)
      have htail : ∀ x, covers r₁ x ↔ covers r₂ x := by
        intro x
        constructor
        · intro hx
          have hlb := wfFrom_tail_covers_lb hw₁ hx
          have hx₂ := (hext x).mp (covers_cons.mpr (Or.inr hx))
          rcases covers_cons.mp hx₂ with h | h
          · omega
          · exact h
        · intro hx
          have hlb := wfFrom_tail_covers_lb hw₂ hx
          have hx₁ := (hext x).mpr (covers_cons.mpr (Or.inr hx))
          rcases covers_cons.mp hx₁ with h | h
          · omega
          · exact h
      have hbc : b = c := by
        obtain ⟨ba, bs⟩ := b
        obtain ⟨ca, cs⟩ := c
        simp only [Block.mk.injEq]
        exact ⟨haddr, hsize⟩
      rw [hbc, ih hw₁.2.2 hw₂.2.2 htail]

theorem wf_covers_interval {l : List Block} :
    ∀ {lo a e : Nat}, wfFrom lo l → a < e →
      (∀ x, x < e → a ≤ x → covers l x) →
      ∃ b ∈ l, b.addr ≤ a ∧ e ≤ b.addr + b.size := by
  induction l with
  | nil =>
    intro lo a e _ hae hcov
    exact absurd (hcov a hae (le_refl a)) (by simp)
  | cons b r ih =>
    intro lo a e hw hae hcov
    have ha := hcov a hae (le_refl a)
    rcases covers_cons.mp ha with hh | ht
    · refine ⟨b, List.mem_cons_self b r, hh.1, ?_⟩
      by_contra hlt
      push_neg at hlt
      have hx := hcov (b.addr + b.size) hlt (by omega)
      rcases covers_cons.mp hx with hh' | ht'
      · omega
      · have := wfFrom_tail_covers_lb hw ht'
        omega
    · have halb := wfFrom_tail_covers_lb hw ht
      have hcov' : ∀ x, x < e → a ≤ x → covers r x := by
        intro x hx1 hx2
        rcases covers_cons.mp (hcov x hx1 hx2) with hh' | ht'
        · omega
        · exact ht'
      obtain ⟨b', hb', h1, h2⟩ := ih hw.2.2 hae hcov'
      exact ⟨b', List.mem_cons_of_mem b hb', h1, h2⟩

/-! ### Lemmas about `alignUp` and `Heap.allocate_first_fit` -/

theorem alignUp_ge {a align : Nat} (hal : 0 < align) : a ≤ alignUp a align := by
  rw [alignUp]
  have heq := Nat.div_add_mod (a + align - 1) align
  have hr : (a + align - 1) % align < align := Nat.mod_lt _ hal
  rw [Nat.mul_comm]
  omega

theorem alignUp_lt {a align : Nat} (hal : 0 < align) : alignUp a align < a + align := by
  rw [alignUp]
  have h2 : (a + align - 1) / align * align ≤ a + align - 1 :=
    Nat.div_mul_le_self _ _
  omega

theorem sortedFrom_mem_le {l : List Block} :
    ∀ {lo : Nat} {c : Block}, sortedFrom lo l → c ∈ l → lo ≤ c.addr := by
  induction l with
  | nil => intro lo c _ hc; simp at hc
  | cons b r ih =>
    intro lo c hs hc
    rcases List.mem_cons.mp hc with rfl | hc
    · exact hs.1
    · have h1 := hs.1
      have := ih hs.2.2 hc
      omega

theorem allocate_first_fit_spec {size align : Nat} {l : List Block} :
    ∀ {lo : Nat} {h' : List Block} {p : Nat},
      sortedFrom lo l → Heap.allocate_first_fit size align l = some (h', p) →
      ∃ b ∈ l, p = alignUp b.addr align ∧ fitsReq size align b ∧
        ∀ c ∈ l, c.addr < b.addr → ¬ fitsReq size align c := by
  induction l with
  | nil =>
    intro lo h' p _ he
    rw [Heap.allocate_first_fit] at he
    exact absurd he (by simp)
  | cons b r ih =>
    intro lo h' p hs he
    rw [Heap.allocate_first_fit] at he
    by_cases hfit : alignUp b.addr align - b.addr + size ≤ b.size
    · rw [if_pos hfit] at he
      have hres := Option.some.inj he
      refine ⟨b, List.mem_cons_self b r, ?_, hfit, ?_⟩
      · rw [← ((Prod.mk.injEq _ _ _ _).mp hres).2]
      · intro c hc hlt
        rcases List.mem_cons.mp hc with rfl | hc
        · omega
        · have h1 := hs.2.1
          have := sortedFrom_mem_le hs.2.2 hc
          omega
    · rw [if_neg hfit] at he
      cases hrec : Heap.allocate_first_fit size align r with
      | none => rw [hrec] at he; exact absurd he (by simp)
      | some res =>
        obtain ⟨rest', p'⟩ := res
        rw [hrec] at he
        dsimp only at he
        have hres := Option.some.inj he
        have hp : p' = p := ((Prod.mk.injEq _ _ _ _).mp hres).2
        obtain ⟨b', hb', hpb, hfits, hmin⟩ := ih hs.2.2 hrec
        refine ⟨b', List.mem_cons_of_mem b hb', by rw [← hp, hpb], hfits, ?_⟩
        intro c hc hlt
        rcases List.mem_cons.mp hc with rfl | hc
        · exact hfit
        · exact hmin c hc hlt

theorem covers_if_singleton {a s x : Nat} :
    covers (if 0 < s then [(⟨a, s⟩ : Block)] else []) x ↔ a ≤ x ∧ x < a + s := by
  split_ifs with hpos
  · rw [covers_cons]
    simp
  · simp
    omega

theorem allocate_first_fit_zero_covers {align : Nat} (hal : 0 < align)
    {l : List Block} :
    ∀ {h' : List Block} {p : Nat},
      Heap.allocate_first_fit 0 align l = some (h', p) →
      ∀ x, covers h' x ↔ covers l x := by
  induction l with
  | nil =>
    intro h' p he
    rw [Heap.allocate_first_fit] at he
    exact absurd he (by simp)
  | cons b r ih =>
    intro h' p he x
    rw [Heap.allocate_first_fit] at he
    by_cases hfit : alignUp b.addr align - b.addr + 0 ≤ b.size
    · rw [if_pos hfit] at he
      have hres := ((Prod.mk.injEq _ _ _ _).mp (Option.some.inj he)).1
      rw [← hres, covers_append, covers_append, covers_if_singleton,
        covers_if_singleton, covers_cons]
      have hup := alignUp_ge (a := b.addr) hal
      constructor
      · rintro ((h | h) | h)
        · exact Or.inl ⟨by omega, by omega⟩
        · exact Or.inl ⟨by omega, by omega⟩
        · exact Or.inr h
      · rintro (h | h)
        · by_cases hx : x < alignUp b.addr align
          · exact Or.inl (Or.inl ⟨by omega, by omega⟩)
          · exact Or.inl (Or.inr ⟨by omega, by omega⟩)
        · exact Or.inr h
    · rw [if_neg hfit] at he
      cases hrec : Heap.allocate_first_fit 0 align r with
      | none => rw [hrec] at he; exact absurd he (by simp)
      | some res =>
        obtain ⟨rest', p'⟩ := res
        rw [hrec] at he
        dsimp only at he
        have hres := ((Prod.mk.injEq _ _ _ _).mp (Option.some.inj he)).1
        rw [← hres, covers_cons, covers_cons, ih hrec x]

/-! ### Claim theorems -/

/-- C1: for every allocation request `(size, align)` and machine state,
`Alloc::alloc` enters the critical section (interrupt delivery disabled on
the core throughout), delegates the request unchanged to the wrapped heap's
first-fit allocate, leaves the critical section restoring the prior
interrupt-enable state, and returns exactly the wrapped heap's result
(pointer or failure); the operation's trace is exactly the two heap
snapshots of the delegated call, so no other computation happens in
between. -/
theorem C1_alloc_enters_cs_and_delegates (size align : Nat) (m : Machine) :
    (Alloc.alloc size align m).2.2 =
      Option.map Prod.snd (Heap.allocate_first_fit size align m.heap) ∧
    (Alloc.alloc size align m).2.1.heap =
      (match Heap.allocate_first_fit size align m.heap with
       | none => m.heap
       | some r => r.1) ∧
    (Alloc.alloc size align m).2.1.primask = m.primask ∧
    (Alloc.alloc size align m).1 =
      [⟨false, m.heap⟩,
       ⟨false, (match Heap.allocate_first_fit size align m.heap with
                | none => m.heap
                | some r => r.1)⟩] ∧
    (∀ mi ∈ (Alloc.alloc size align m).1, ¬ interruptsEnabled mi) := by
  cases hres : Heap.allocate_first_fit size align m.heap with
  | none => simp [Alloc.alloc, Mutex.lock, hres, interruptsEnabled]
  | some r => simp [Alloc.alloc, Mutex.lock, hres, interruptsEnabled]

/-- C2: for `end_addr > start_addr` (both valid 32-bit addresses),
`CortexMHeap::init` computes `size = end_addr - start_addr` (the machine
subtraction does not wrap here) and, inside the critical section,
initializes the wrapped heap to the single free block `[start_addr,
start_addr + size)`; the byte at `end_addr` is not covered by the free
list. -/
theorem C2_init_establishes_region (start_addr end_addr : Nat) (m : Machine)
    (hlt : start_addr < end_addr) (hub : end_addr < 2 ^ 32) :
    usizeSub end_addr start_addr = end_addr - start_addr ∧
    (CortexMHeap.init start_addr end_addr m).2.1.heap =
      [⟨start_addr, end_addr - start_addr⟩] ∧
    (∀ x, covers (CortexMHeap.init start_addr end_addr m).2.1.heap x ↔
      start_addr ≤ x ∧ x < end_addr) ∧
    ¬ covers (CortexMHeap.init start_addr end_addr m).2.1.heap end_addr ∧
    (CortexMHeap.init start_addr end_addr m).2.1.primask = m.primask ∧
    (∀ mi ∈ (CortexMHeap.init start_addr end_addr m).1,
      ¬ interruptsEnabled mi) := by
  have hsub : usizeSub end_addr start_addr = end_addr - start_addr := by
    rw [usizeSub]; omega
  refine ⟨hsub, ?_, ?_, ?_, rfl, ?_⟩
  · simp [CortexMHeap.init, Mutex.lock, Heap.init, hsub]
  · intro x
    simp only [CortexMHeap.init, Mutex.lock, Heap.init, hsub, covers_cons,
      covers_nil, or_false]
    omega
  · simp only [CortexMHeap.init, Mutex.lock, Heap.init, hsub, covers_cons,
      covers_nil, or_false]
    omega
  · simp [CortexMHeap.init, Mutex.lock, interruptsEnabled]

/-- C2 witness: region `[0x1000, 0x1400)`. -/
theorem C2_init_establishes_region_witness :
    4096 < 5120 ∧ 5120 < 2 ^ 32 ∧
    (usizeSub 5120 4096 = 5120 - 4096 ∧
     (CortexMHeap.init 4096 5120 ⟨true, []⟩).2.1.heap =
       [⟨4096, 5120 - 4096⟩] ∧
     (∀ x, covers (CortexMHeap.init 4096 5120 ⟨true, []⟩).2.1.heap x ↔
       4096 ≤ x ∧ x < 5120) ∧
     ¬ covers (CortexMHeap.init 4096 5120 ⟨true, []⟩).2.1.heap 5120 ∧
     (CortexMHeap.init 4096 5120 ⟨true, []⟩).2.1.primask =
       (Machine.mk true []).primask ∧
     (∀ mi ∈ (CortexMHeap.init 4096 5120 ⟨true, []⟩).1,
       ¬ interruptsEnabled mi)) :=
  ⟨by norm_num, by norm_num,
   C2_init_establishes_region 4096 5120 ⟨true, []⟩ (by norm_num) (by norm_num)⟩

/-- C3: whenever the wrapped heap's first-fit allocate reports failure
(OutOfMemory), `Alloc::alloc` returns exactly that typed failure (`none`,
modelling `Err(AllocErr)`) to the caller, leaves the free list untouched
(no internal retry), and terminates normally with the interrupt-enable
state restored. -/
theorem C3_alloc_propagates_oom (size align : Nat) (m : Machine)
    (he : Heap.allocate_first_fit size align m.heap = none) :
    (Alloc.alloc size align m).2.2 = none ∧
    (Alloc.alloc size align m).2.1.heap = m.heap ∧
    (Alloc.alloc size align m).2.1.primask = m.primask := by
  simp [Alloc.alloc, Mutex.lock, he]

/-- C3 witness: a 100-byte request against a 4-byte heap fails and is
propagated. -/
theorem C3_alloc_propagates_oom_witness :
    Heap.allocate_first_fit 100 1 (Machine.mk true [⟨0, 4⟩]).heap = none ∧
    ((Alloc.alloc 100 1 ⟨true, [⟨0, 4⟩]⟩).2.2 = none ∧
     (Alloc.alloc 100 1 ⟨true, [⟨0, 4⟩]⟩).2.1.heap =
       (Machine.mk true [⟨0, 4⟩]).heap ∧
     (Alloc.alloc 100 1 ⟨true, [⟨0, 4⟩]⟩).2.1.primask =
       (Machine.mk true [⟨0, 4⟩]).primask) :=
  ⟨by decide, C3_alloc_propagates_oom 100 1 ⟨true, [⟨0, 4⟩]⟩ (by decide)⟩

/-- C4: every access to the wrapped heap happens inside the
interrupt-disabling mutex: along the trace of each of the three operations
(`init`, `alloc`, `dealloc`) interrupt delivery is disabled in every
intermediate machine state, so no interrupt handler (the only concurrent
actor on the core) can run while the free list is being read or mutated,
and no two allocator operations interleave. -/
theorem C4_ops_exclude_interrupts
    (start_addr end_addr size align ptr dsize dalign : Nat)
    (m₁ m₂ m₃ : Machine) :
    (∀ mi ∈ (CortexMHeap.init start_addr end_addr m₁).1,
      ¬ interruptsEnabled mi) ∧
    (∀ mi ∈ (Alloc.alloc size align m₂).1, ¬ interruptsEnabled mi) ∧
    (∀ mi ∈ (Alloc.dealloc ptr dsize dalign m₃).1, ¬ interruptsEnabled mi) := by
  refine ⟨?_, ?_, ?_⟩ <;>
    simp [CortexMHeap.init, Alloc.alloc, Alloc.dealloc, Mutex.lock,
      interruptsEnabled]

/-- C5: for every `(ptr, size, align)` and machine state, `Alloc::dealloc`
enters the critical section, delegates to the wrapped heap's deallocate,
and leaves the critical section with the prior interrupt-enable state
restored; its only effect is the free-list mutation performed by the
wrapped heap's deallocate, its trace is exactly the two heap snapshots of
that delegated call, and it returns no value beyond success (unit). -/
theorem C5_dealloc_locks_and_delegates (ptr size align : Nat) (m : Machine) :
    (Alloc.dealloc ptr size align m).2.1.heap =
      Heap.deallocate ptr size align m.heap ∧
    (Alloc.dealloc ptr size align m).2.1.primask = m.primask ∧
    (Alloc.dealloc ptr size align m).2.2 = () ∧
    (Alloc.dealloc ptr size align m).1 =
      [⟨false, m.heap⟩, ⟨false, Heap.deallocate ptr size align m.heap⟩] ∧
    (∀ mi ∈ (Alloc.dealloc ptr size align m).1, ¬ interruptsEnabled mi) := by
  simp [Alloc.dealloc, Mutex.lock, interruptsEnabled]

/-- C6: `CortexMHeap::empty` produces the uninitialized allocator: it wraps
a heap with an empty free list (no backing region — no address is covered),
and construction performs no region access and leaves the interrupt-enable
flag exactly as it was, so it is safe before interrupts are enabled. -/
theorem C6_empty_is_uninitialized (primask : Bool) :
    (CortexMHeap.empty primask).heap = Heap.empty ∧
    Heap.empty = ([] : List Block) ∧
    (CortexMHeap.empty primask).primask = primask ∧
    (∀ x, ¬ covers (CortexMHeap.empty primask).heap x) := by
  refine ⟨rfl, rfl, rfl, ?_⟩
  intro x
  simp [CortexMHeap.empty, Heap.empty]

/-- C7: first-fit determinism — for every sorted free-list state and every
request `(size, align)`, two runs of the first-fit allocate from the
identical state return identical results, and the chosen block is the
lowest-addressed free block that, after rounding its address up to the
alignment, has enough space for the requested size (no lower-addressed
block fits). -/
theorem C7_first_fit_deterministic_lowest (size align lo : Nat)
    (h h₁ h₂ : List Block) (p₁ p₂ : Nat) (hs : sortedFrom lo h)
    (e₁ : Heap.allocate_first_fit size align h = some (h₁, p₁))
    (e₂ : Heap.allocate_first_fit size align h = some (h₂, p₂)) :
    h₁ = h₂ ∧ p₁ = p₂ ∧
    ∃ b ∈ h, p₁ = alignUp b.addr align ∧ fitsReq size align b ∧
      ∀ c ∈ h, c.addr < b.addr → ¬ fitsReq size align c := by
  rw [e₁] at e₂
  have h12 := Option.some.inj e₂
  exact ⟨((Prod.mk.injEq _ _ _ _).mp h12).1,
    ((Prod.mk.injEq _ _ _ _).mp h12).2,
    allocate_first_fit_spec hs e₁⟩

/-- C7 witness: the 16-byte align-8 request skips the unfit block at 100 and
chooses the block at 200, deterministically. -/
theorem C7_first_fit_deterministic_lowest_witness :
    sortedFrom 0 [⟨100, 8⟩, ⟨200, 50⟩] ∧
    Heap.allocate_first_fit 16 8 [⟨100, 8⟩, ⟨200, 50⟩] =
      some ([⟨100, 8⟩, ⟨216, 34⟩], 200) ∧
    (([⟨100, 8⟩, ⟨216, 34⟩] : List Block) = [⟨100, 8⟩, ⟨216, 34⟩] ∧
     200 = 200 ∧
     ∃ b ∈ ([⟨100, 8⟩, ⟨200, 50⟩] : List Block), 200 = alignUp b.addr 8 ∧
       fitsReq 16 8 b ∧
       ∀ c ∈ ([⟨100, 8⟩, ⟨200, 50⟩] : List Block),
         c.addr < b.addr → ¬ fitsReq 16 8 c) :=
  ⟨by decide, by decide,
   C7_first_fit_deterministic_lowest 16 8 0 [⟨100, 8⟩, ⟨200, 50⟩]
     [⟨100, 8⟩, ⟨216, 34⟩] [⟨100, 8⟩, ⟨216, 34⟩] 200 200
     (by decide) (by decide) (by decide)⟩

/-- C8: order-independent coalescing — deallocating two adjacent allocated
ranges `[a, a+s)` and `[a+s, a+s+t)` (both nonempty and disjoint from the
current well-formed free list) in either order yields the same final free
list; that list is again well-formed (ascending-address order preserved)
and contains one merged free block spanning both ranges, so each
deallocation merged with both of its neighbours in the same call. -/
theorem C8_dealloc_adjacent_order_independent (h : List Block)
    (a s t al₁ al₂ : Nat) (hw : wf h) (hs : 0 < s) (ht : 0 < t)
    (hdisj : ∀ x, x < a + s + t → a ≤ x → ¬ covers h x) :
    Heap.deallocate (a + s) t al₂ (Heap.deallocate a s al₁ h) =
      Heap.deallocate a s al₁ (Heap.deallocate (a + s) t al₂ h) ∧
    wf (Heap.deallocate (a + s) t al₂ (Heap.deallocate a s al₁ h)) ∧
    ∃ b ∈ Heap.deallocate (a + s) t al₂ (Heap.deallocate a s al₁ h),
      b.addr ≤ a ∧ a + s + t ≤ b.addr + b.size := by
  have hd₁ : ∀ x, x < a + s → a ≤ x → ¬ covers h x := by
    intro x h1 h2
    exact hdisj x (by omega) h2
  have hd₂ : ∀ x, x < a + s + t → a + s ≤ x → ¬ covers h x := by
    intro x h1 h2
    exact hdisj x (by omega) (by omega)
  have hw₁ : wf (Heap.deallocate a s al₁ h) := wf_deallocate hw hs hd₁
  have hw₂ : wf (Heap.deallocate (a + s) t al₂ h) := wf_deallocate hw ht hd₂
  have hd₁₂ : ∀ x, x < a + s + t → a + s ≤ x →
      ¬ covers (Heap.deallocate a s al₁ h) x := by
    intro x h1 h2 hc
    rcases covers_deallocate.mp hc with hr | hr
    · omega
    · exact hdisj x (by omega) (by omega) hr
  have hd₂₁ : ∀ x, x < a + s → a ≤ x →
      ¬ covers (Heap.deallocate (a + s) t al₂ h) x := by
    intro x h1 h2 hc
    rcases covers_deallocate.mp hc with hr | hr
    · omega
    · exact hdisj x (by omega) h2 hr
  have hwA : wf (Heap.deallocate (a + s) t al₂ (Heap.deallocate a s al₁ h)) :=
    wf_deallocate hw₁ ht hd₁₂
  have hwB : wf (Heap.deallocate a s al₁ (Heap.deallocate (a + s) t al₂ h)) :=
    wf_deallocate hw₂ hs hd₂₁
  have hcov : ∀ x,
      covers (Heap.deallocate (a + s) t al₂ (Heap.deallocate a s al₁ h)) x ↔
      covers (Heap.deallocate a s al₁ (Heap.deallocate (a + s) t al₂ h)) x := by
    intro x
    rw [covers_deallocate, covers_deallocate, covers_deallocate,
      covers_deallocate]
    constructor
    · rintro (h' | h' | h')
      · exact Or.inr (Or.inl ⟨by omega, by omega⟩)
      · exact Or.inl h'
      · exact Or.inr (Or.inr h')
    · rintro (h' | h' | h')
      · exact Or.inr (Or.inl h')
      · exact Or.inl ⟨by omega, by omega⟩
      · exact Or.inr (Or.inr h')
  have heq := wf_ext hwA hwB hcov
  refine ⟨heq, hwA, ?_⟩
  refine wf_covers_interval hwA (by omega) ?_
  intro x h1 h2
  rw [covers_deallocate, covers_deallocate]
  by_cases hx : x < a + s
  · exact Or.inr (Or.inl ⟨h2, hx⟩)
  · exact Or.inl ⟨by omega, by omega⟩

/-- C8 witness: freeing `[10, 16)` then `[16, 20)` into the free list
`{[0, 4), [100, 110)}` merges into one block `[10, 20)`, the same in either
order. -/
theorem C8_dealloc_adjacent_order_independent_witness :
    wf [⟨0, 4⟩, ⟨100, 10⟩] ∧ 0 < 6 ∧ 0 < 4 ∧
    (∀ x, x < 10 + 6 + 4 → 10 ≤ x → ¬ covers [⟨0, 4⟩, ⟨100, 10⟩] x) ∧
    (Heap.deallocate (10 + 6) 4 1
        (Heap.deallocate 10 6 1 [⟨0, 4⟩, ⟨100, 10⟩]) =
      Heap.deallocate 10 6 1
        (Heap.deallocate (10 + 6) 4 1 [⟨0, 4⟩, ⟨100, 10⟩]) ∧
     wf (Heap.deallocate (10 + 6) 4 1
        (Heap.deallocate 10 6 1 [⟨0, 4⟩, ⟨100, 10⟩])) ∧
     ∃ b ∈ Heap.deallocate (10 + 6) 4 1
        (Heap.deallocate 10 6 1 [⟨0, 4⟩, ⟨100, 10⟩]),
       b.addr ≤ 10 ∧ 10 + 6 + 4 ≤ b.addr + b.size) :=
  ⟨by decide, by decide, by decide, by decide,
   C8_dealloc_adjacent_order_independent [⟨0, 4⟩, ⟨100, 10⟩] 10 6 4 1 1
     (by decide) (by decide) (by decide) (by decide)⟩

/-- C9: a zero-size allocation request does not corrupt the free list —
when the first-fit allocate satisfies it (with a positive power-of-two-style
alignment), the set of addresses covered by the free list is unchanged, and
the returned sentinel range `[p, p + 0)` is empty, so it cannot overlap any
block handed out by a real (non-zero-size) allocation. -/
theorem C9_zero_size_alloc_harmless (align : Nat) (l h' : List Block)
    (p : Nat) (hal : 0 < align)
    (he : Heap.allocate_first_fit 0 align l = some (h', p)) :
    (∀ x, covers h' x ↔ covers l x) ∧
    (∀ x, ¬ (p ≤ x ∧ x < p + 0)) := by
  refine ⟨allocate_first_fit_zero_covers hal he, ?_⟩
  intro x hx
  omega

/-- C9 witness: a zero-size align-4 request on the free list `{[6, 16)}`
returns sentinel 8 and leaves the covered addresses unchanged. -/
theorem C9_zero_size_alloc_harmless_witness :
    0 < 4 ∧
    Heap.allocate_first_fit 0 4 [⟨6, 10⟩] = some ([⟨6, 2⟩, ⟨8, 8⟩], 8) ∧
    ((∀ x, covers [⟨6, 2⟩, ⟨8, 8⟩] x ↔ covers [⟨6, 10⟩] x) ∧
     (∀ x, ¬ (8 ≤ x ∧ x < 8 + 0))) :=
  ⟨by decide, by decide,
   C9_zero_size_alloc_harmless 4 [⟨6, 10⟩] [⟨6, 2⟩, ⟨8, 8⟩] 8
     (by decide) (by decide)⟩

/-- C10: `CortexMHeap::init` performs no validity check on its arguments:
when `end_addr < start_addr` (both valid 32-bit values) the size is still
computed by the raw unsigned subtraction, which wraps modulo `2 ^ 32`, and
the wrapped heap is initialized with that wrapped value as its size rather
than the call being rejected. -/
theorem C10_init_underflow_wraps (start_addr end_addr : Nat) (m : Machine)
    (hlt : end_addr < start_addr) (hub : start_addr < 2 ^ 32) :
    usizeSub end_addr start_addr = 2 ^ 32 - (start_addr - end_addr) ∧
    (CortexMHeap.init start_addr end_addr m).2.1.heap =
      [⟨start_addr, 2 ^ 32 - (start_addr - end_addr)⟩] := by
  have hsub : usizeSub end_addr start_addr =
      2 ^ 32 - (start_addr - end_addr) := by
    rw [usizeSub]; omega
  exact ⟨hsub, by simp [CortexMHeap.init, Mutex.lock, Heap.init, hsub]⟩

/-- C10 witness: `init(start_addr := 10, end_addr := 4)` initializes the
heap with the wrapped size `2 ^ 32 - 6`. -/
theorem C10_init_underflow_wraps_witness :
    4 < 10 ∧ 10 < 2 ^ 32 ∧
    (usizeSub 4 10 = 2 ^ 32 - (10 - 4) ∧
     (CortexMHeap.init 10 4 ⟨true, []⟩).2.1.heap =
       [⟨10, 2 ^ 32 - (10 - 4)⟩]) :=
  ⟨by norm_num, by norm_num,
   C10_init_underflow_wraps 10 4 ⟨true, []⟩ (by norm_num) (by norm_num)⟩
